import Mathlib

/-!
Verification of the NiDKG toolkit: Shamir secret sharing with resharing
(src/secret_sharing/shamir.py), base-B message chunking
(src/encryption/chunking.py), the baby-step giant-step discrete-log solver
and bounded ElGamal cipher (src/encryption/bsgs.py), and the chunked share
encryption layer (src/encryption/enc_secret_shares.py).

The elliptic-curve group provider is external to the code base; following the
interface contract (a cyclic group of prime order `q` with injective canonical
encoding), group elements are modelled by the exponent space `ZMod q`, group
addition by `+`, negation by `-`, and `multiply(P, k)` by `(k : ZMod q) * P`.
Arbitrary-precision integers are `Nat`/`Int` with the explicit `% p`
reductions placed exactly where the source places them.
-/

namespace NiDKG

/-! ### Chunker (src/encryption/chunking.py) -/

/-- Number of base-`B` chunks, `math.ceil(math.log(curve_order, B))` in
`MessageChunker.__init__`, modelled as the exact ceiling logarithm. -/
def m_chunks (B P : Nat) : Nat := Nat.clog B P

/-- Loop body of `MessageChunker.chunk_message`: `count` times, emit `m % B`
and replace `m` by `m // B`. -/
def chunk_loop (B : Nat) : Nat → Nat → List Nat
  | 0, _ => []
  | k + 1, m => m % B :: chunk_loop B k (m / B)

/-- `MessageChunker.chunk_message`: split `m` into `m_chunks` little-endian
base-`B` digits. -/
def chunk_message (B P m : Nat) : List Nat := chunk_loop B (m_chunks B P) m

/-- `MessageChunker.reassemble_message`: the weighted sum
`sum_j chunk_j * B^j`, reduced `% curve_order` at the end. -/
def reassemble_message (B P : Nat) (chunks : List Nat) : Nat :=
  ((chunks.enum.map (fun jc => jc.2 * B ^ jc.1)).sum) % P

/-! ### Discrete log solver (src/encryption/bsgs.py) -/

/-- Upward search for the smallest `m ≥ start` with `n ≤ m * m`. -/
def ceil_sqrt_go (n : Nat) : Nat → Nat → Nat
  | 0, start => start
  | fuel + 1, start => if n ≤ start * start then start else ceil_sqrt_go n fuel (start + 1)

/-- Exact value of `math.ceil(math.sqrt(limit))` used as the step count `m`:
the smallest `m` with `m * m ≥ limit`. -/
def ceil_sqrt (n : Nat) : Nat := ceil_sqrt_go n (n + 1) 0

/-- Baby-step table: for `j in range(m)` store `j*base ↦ j`.  The python dict
keys are collision-checked hashes of the injective canonical encoding, so the
table is keyed by the group element itself; a later insert shadows an earlier
one, which the head-first lookup of `table_find` reproduces. -/
def baby_table (q : Nat) (base : ZMod q) : Nat → List (ZMod q × Nat)
  | 0 => []
  | j + 1 => ((j : ZMod q) * base, j) :: baby_table q base j

/-- Dictionary lookup in the baby-step table (first match wins, i.e. the most
recently inserted binding). -/
def table_find (q : Nat) : List (ZMod q × Nat) → ZMod q → Option Nat
  | [], _ => none
  | (k, v) :: rest, x => if k = x then some v else table_find q rest x

/-- Giant-step loop of `DiscreteLog.baby_step_giant_step`: for `i in range(m)`
look `current` up in the table; on a hit with stored `j`, accept `i*m + j`
only after re-verifying `(i*m+j)*base == target`, otherwise advance
`current += giant_step`. -/
def giant_loop (q : Nat) (base target gstep : ZMod q) (m : Nat)
    (table : List (ZMod q × Nat)) : Nat → Nat → ZMod q → Option Nat
  | 0, _, _ => none
  | fuel + 1, i, current =>
    match table_find q table current with
    | some j =>
      if ((i * m + j : Nat) : ZMod q) * base = target then some (i * m + j)
      else giant_loop q base target gstep m table fuel (i + 1) (current + gstep)
    | none => giant_loop q base target gstep m table fuel (i + 1) (current + gstep)

/-- `DiscreteLog.baby_step_giant_step`: the two shortcut branches (identity
target ↦ 0, `target == base` ↦ 1) followed by the general meet-in-the-middle
search with `m = ceil(sqrt(limit))` and giant stride `m * (-base)`. -/
def baby_step_giant_step (q : Nat) (base target : ZMod q) (limit : Nat) :
    Option Nat :=
  if target = 0 then some 0
  else if base = target then some 1
  else
    giant_loop q base target ((ceil_sqrt limit : ZMod q) * (-base))
      (ceil_sqrt limit) (baby_table q base (ceil_sqrt limit))
      (ceil_sqrt limit) 0 target

/-- Modelled from the spec: the "general algorithm" that the spec's shortcut
sentence refers to, i.e. the same baby-step giant-step search but without the
two shortcut branches.  Used to compare the shortcuts against the general
search (claim C6). -/
def baby_step_giant_step_general (q : Nat) (base target : ZMod q)
    (limit : Nat) : Option Nat :=
  giant_loop q base target ((ceil_sqrt limit : ZMod q) * (-base))
    (ceil_sqrt limit) (baby_table q base (ceil_sqrt limit))
    (ceil_sqrt limit) 0 target

/-! ### ElGamal cipher (src/encryption/bsgs.py, class ElGamalEncryption) -/

/-- `ElGamalEncryption.encrypt`: reject `message >= limit` (ValueError), then
with ephemeral randomness `r` return `(C, R) = (r*pk + message*G, r*G)`.
The message is an arbitrary python integer, hence `Int`. -/
def elgamal_encrypt (q : Nat) (G pk : ZMod q) (limit message : Int)
    (r : Nat) : Option (ZMod q × ZMod q) :=
  if limit ≤ message then none
  else some ((r : ZMod q) * pk + (message : ZMod q) * G, (r : ZMod q) * G)

/-- `ElGamalEncryption.decrypt`: compute `M' = C - sk*R` and solve the bounded
discrete log; a failed search raises (None result). -/
def elgamal_decrypt (q : Nat) (G : ZMod q) (sk : Nat) (ct : ZMod q × ZMod q)
    (limit : Nat) : Option Nat :=
  baby_step_giant_step q G (ct.1 + -((sk : ZMod q) * ct.2)) limit

/-! ### Share encryption (src/encryption/enc_secret_shares.py) -/

/-- `EncryptSecretShares.encrypt_share`: reject `r >= curve_order`
(ValueError), then chunk the share and encrypt every chunk with the same
shared randomness `r`, pairing each `C_j = r*pk + m_j*G` with `R = r*G`. -/
def encrypt_share (q B P : Nat) (G pk : ZMod q) (share r : Nat) :
    Option (List (ZMod q × ZMod q)) :=
  if q ≤ r then none
  else
    some ((chunk_message B P share).map
      (fun (mj : Nat) => ((r : ZMod q) * pk + (mj : ZMod q) * G, (r : ZMod q) * G)))

/-- Chunk-by-chunk loop of `EncryptSecretShares.decrypt_share`: recover each
chunk by a bounded discrete log with limit `B`; any failed chunk aborts the
whole decryption (ValueError). -/
def decrypt_chunks (q B : Nat) (G : ZMod q) (sk : Nat) :
    List (ZMod q × ZMod q) → Option (List Nat)
  | [] => some []
  | cr :: rest =>
    match baby_step_giant_step q G (cr.1 + -((sk : ZMod q) * cr.2)) B,
        decrypt_chunks q B G sk rest with
    | some m, some ms => some (m :: ms)
    | _, _ => none

/-- `EncryptSecretShares.decrypt_share`: decrypt all chunks, then reassemble. -/
def decrypt_share (q B P : Nat) (G : ZMod q) (sk : Nat)
    (ciphertext : List (ZMod q × ZMod q)) : Option Nat :=
  (decrypt_chunks q B G sk ciphertext).map (reassemble_message B P)

/-! ### Shamir secret sharing (src/secret_sharing/shamir.py) -/

/-- External dependency: sympy's `mod_inverse(a, p)`, which raises ValueError
when `gcd(a, p) ≠ 1` and otherwise returns the inverse of `a` modulo `p` in
`[0, p)`.  Modelled for a prime modulus via Fermat's little theorem, which is
extensionally equal to the extended-Euclid implementation on that domain. -/
def mod_inverse (a p : Nat) : Option Nat :=
  if Nat.gcd (a % p) p = 1 then some ((a ^ (p - 2)) % p) else none

/-- Inner loop of `SecretSharing._generate_shares`: evaluate the polynomial
given by `coeffs` at `x`, accumulating `y = (y + coeff * x**i) % prime` over
`enumerate(coefficients)`. -/
def eval_poly_aux (p x : Nat) : List Nat → Nat → Nat → Nat
  | [], y, _ => y
  | c :: cs, y, i => eval_poly_aux p x cs ((y + c * x ^ i) % p) (i + 1)

/-- `SecretSharing._generate_shares`: shares `x ↦ f(x)` for `x = 1..n`, where
`coeffs = [secret] + (threshold-1 sampled coefficients)` (the randomness is an
external input, so the sampled coefficients are a parameter). -/
def generate_shares (p : Nat) (coeffs : List Nat) (num_shares : Nat) :
    List (Nat × Nat) :=
  (List.range num_shares).map (fun k => (k + 1, eval_poly_aux p (k + 1) coeffs 0 0))

/-- Body of the Lagrange-basis loop of `SecretSharing.reconstruct_secret`:
for each `x_m ≠ x_j`, multiply the running numerator by `-x_m` and the
running denominator by `x_j - x_m`, each reduced `% prime`. -/
def lagrange_step (p xj : Nat) (nd : Int × Int) (xm : Nat) : Int × Int :=
  if xj ≠ xm then
    ((nd.1 * (-(xm : Int))) % (p : Int), (nd.2 * ((xj : Int) - (xm : Int))) % (p : Int))
  else nd

/-- Numerator/denominator pair of the Lagrange basis for node `xj` over the
key set `keys`, starting from `(1, 1)`. -/
def lagrange_nd (p xj : Nat) (keys : List Nat) : Int × Int :=
  keys.foldl (lagrange_step p xj) (1, 1)

/-- `lagrange_basis = (numerator * mod_inverse(denominator, prime)) % prime`;
a non-invertible denominator propagates sympy's ValueError. -/
def lagrange_basis (p xj : Nat) (keys : List Nat) : Option Nat :=
  (mod_inverse (lagrange_nd p xj keys).2.toNat p).map
    (fun (inv : Nat) => (((lagrange_nd p xj keys).1 * (inv : Int)) % (p : Int)).toNat)

/-- Accumulating loop of `SecretSharing.reconstruct_secret`:
`secret = (secret + y_j * lagrange_basis) % prime` over the shares. -/
def reconstruct_sum (p : Nat) (keys : List Nat) :
    List (Nat × Nat) → Nat → Option Nat
  | [], acc => some acc
  | s :: rest, acc =>
    match lagrange_basis p s.1 keys with
    | none => none
    | some b => reconstruct_sum p keys rest ((acc + s.2 * b) % p)

/-- `SecretSharing.reconstruct_secret`: raise (None) when fewer shares than
the threshold are held, otherwise Lagrange-interpolate at `x = 0` over all
held shares. -/
def reconstruct_secret (p threshold : Nat) (shares : List (Nat × Nat)) :
    Option Nat :=
  if shares.length < threshold then none
  else reconstruct_sum p (shares.map Prod.fst) shares 0

/-- Transposed sub-share set of `SecretSharing.reshare_shares` for new index
`j`: each held share `(i, v_i)` is sub-shared with fresh coefficients `cs_i`
(the pair list is `shares.zip css`), and entry `i` of the transposed set is
the evaluation of `[v_i] + cs_i` at `j`. -/
def transpose_sub (p : Nat) (pairs : List ((Nat × Nat) × List Nat)) (j : Nat) :
    List (Nat × Nat) :=
  pairs.map (fun pc => (pc.1.1, eval_poly_aux p j (pc.1.2 :: pc.2) 0 0))

/-- Reconstruction of every transposed sub-share set, using the engine's own
declared threshold `t` as the degree bound, exactly as
`SecretSharing(ReconstructionBuilder(sub_shares, self.threshold, prime))`. -/
def reshare_loop (p t : Nat) (pairs : List ((Nat × Nat) × List Nat)) :
    List Nat → Option (List (Nat × Nat))
  | [] => some []
  | j :: js =>
    match reconstruct_secret p t (transpose_sub p pairs j),
        reshare_loop p t pairs js with
    | some h, some rest => some ((j, h) :: rest)
    | _, _ => none

/-- `SecretSharing.reshare_shares(threshold=new_t, num_shares=new_n, seed)`:
first the guard `if self.threshold > len(self.shares): raise ValueError`;
then each held share is sub-shared into a fresh `(new_t, new_n)` sharing
(raising inside `SharingBuilder` when `new_t > new_n`), the sub-shares are
transposed by new index `j = 1..new_n` and each transposed set is
reconstructed with the engine's own threshold; finally the result is wrapped
in `ReconstructionBuilder(· , new_t)`, whose constructor eagerly
reconstructs (raising on failure).  The sub-sharing coefficient lists `css`
stand for the externally sampled randomness. -/
def reshare_shares (p t new_t new_n : Nat) (shares : List (Nat × Nat))
    (css : List (List Nat)) : Option (List (Nat × Nat)) :=
  if shares.length < t then none
  else if shares.isEmpty then
    if 0 < new_t then none else some []
  else if new_n < new_t then none
  else
    (reshare_loop p t (shares.zip css) ((List.range new_n).map (fun k => k + 1))).bind
      (fun reshared => (reconstruct_secret p new_t reshared).map (fun _ => reshared))

/-! ### Chunker lemmas and claim C5 -/

/-- Value of a little-endian digit list, in Horner form. -/
def weighted_value (B : Nat) : List Nat → Nat
  | [] => 0
  | c :: cs => c + B * weighted_value B cs

theorem enumFrom_weighted_sum (B : Nat) :
    ∀ (l : List Nat) (i : Nat),
      ((List.enumFrom i l).map (fun jc => jc.2 * B ^ jc.1)).sum =
        B ^ i * weighted_value B l := by
  intro l
  induction l with
  | nil => intro i; simp [weighted_value]
  | cons c cs ih =>
    intro i
    simp only [List.enumFrom, List.map_cons, List.sum_cons, weighted_value, ih (i + 1)]
    ring

theorem chunk_loop_value (B : Nat) (hB : 1 < B) :
    ∀ (k m : Nat), m < B ^ k → weighted_value B (chunk_loop B k m) = m := by
  intro k
  induction k with
  | zero =>
    intro m hm
    rw [pow_zero] at hm
    obtain rfl : m = 0 := by omega
    rfl
  | succ k ih =>
    intro m hm
    have hB0 : 0 < B := by omega
    have hdiv : m / B < B ^ k := by
      rw [Nat.div_lt_iff_lt_mul hB0]
      calc m < B ^ (k + 1) := hm
        _ = B ^ k * B := by ring
    simp only [chunk_loop, weighted_value, ih (m / B) hdiv]
    exact Nat.mod_add_div m B

theorem chunk_loop_length (B k : Nat) : ∀ m, (chunk_loop B k m).length = k := by
  induction k with
  | zero => intro m; rfl
  | succ k ih => intro m; simp [chunk_loop, ih]

/-- C5: for every value `v` with `0 ≤ v < P`,
`reassemble_message(chunk_message(v)) = v`: `chunk_message` produces the
little-endian base-B digits of `v` and `reassemble_message` computes the
weighted sum reduced mod `P`. -/
theorem chunk_reassemble_round_trip (B P v : Nat) (hB : 1 < B) (hv : v < P) :
    reassemble_message B P (chunk_message B P v) = v := by
  have hP : P ≤ B ^ m_chunks B P := Nat.le_pow_clog hB P
  have hvB : v < B ^ m_chunks B P := lt_of_lt_of_le hv hP
  unfold reassemble_message chunk_message
  rw [show (chunk_loop B (m_chunks B P) v).enum =
        List.enumFrom 0 (chunk_loop B (m_chunks B P) v) from rfl,
    enumFrom_weighted_sum, pow_zero, one_mul,
    chunk_loop_value B hB (m_chunks B P) v hvB, Nat.mod_eq_of_lt hv]

/-- Witness for C5 at a concrete input. -/
theorem chunk_reassemble_round_trip_witness :
    (1 < 2 ∧ 3 < 5) ∧ reassemble_message 2 5 (chunk_message 2 5 3) = 3 :=
  ⟨by decide, chunk_reassemble_round_trip 2 5 3 (by decide) (by decide)⟩

/-! ### Claim C10: decrypting an empty chunked ciphertext -/

/-- C10: `decrypt_share(sk, [])` does not raise: it returns 0, since
reassembling zero chunks yields the empty weighted sum `0 % P = 0`; the chunk
count of the input is never validated against the configured `m_chunks`. -/
theorem decrypt_share_empty (q B P : Nat) (G : ZMod q) (sk : Nat) :
    decrypt_share q B P G sk [] = some 0 := by
  simp [decrypt_share, decrypt_chunks, reassemble_message]

/-! ### Claim C7: ElGamal encrypt validation -/

/-- Counterexample to C7: at `message = -1 < 0` (out of range) and
`limit = 16`, `encrypt` does not raise ValidationError — the code only checks
`message >= limit`, so the claimed "if and only if" fails for negative
messages. -/
theorem encrypt_accepts_negative_message :
    (elgamal_encrypt 5 (1 : ZMod 5) (2 : ZMod 5) 16 (-1) 1).isSome = true ∧
      (-1 : Int) < 0 := by constructor <;> decide

/-- C7 (amended): `encrypt(pk, message, limit)` raises ValidationError iff
`message ≥ limit`; a negative message is not validated (it is passed on to
the external scalar multiplication), and for every `message < limit` the call
returns the ciphertext pair `(r*pk + message*G, r*G)`. -/
theorem encrypt_validation (q : Nat) (G pk : ZMod q) (limit message : Int)
    (r : Nat) :
    (elgamal_encrypt q G pk limit message r = none ↔ limit ≤ message) ∧
    (message < limit →
      elgamal_encrypt q G pk limit message r =
        some ((r : ZMod q) * pk + (message : ZMod q) * G, (r : ZMod q) * G)) := by
  unfold elgamal_encrypt
  constructor
  · split <;> simp_all
  · intro h
    rw [if_neg (by omega)]

/-- Witness for C7's amended theorem at a concrete input. -/
theorem encrypt_validation_witness :
    elgamal_encrypt 5 (1 : ZMod 5) (2 : ZMod 5) 3 2 1 =
      some ((1 : ZMod 5) * 2 + (2 : ZMod 5) * 1, (1 : ZMod 5) * 1) :=
  (encrypt_validation 5 1 2 3 2 1).2 (by decide)

/-! ### Claim C8: shared-randomness share encryption validation -/

/-- Counterexample to C8: `encrypt_share` accepts `r = 0` (which is outside
`[1, P-1]`) without raising — the code only checks `r >= curve_order`. -/
theorem encrypt_share_accepts_zero_r :
    (encrypt_share 5 2 5 (1 : ZMod 5) (2 : ZMod 5) 3 0).isSome = true := by
  decide

/-- C8 (amended): `encrypt_share(pk, share, r)` raises ValidationError iff
`r ≥ P` (in particular `r = 0` is accepted, unlike the multi-receiver
wrapper); for every `r < P` it returns one chunk ciphertext per digit, each
paired with the same `R = r*G`. -/
theorem encrypt_share_validation (q B P : Nat) (G pk : ZMod q) (share r : Nat) :
    (encrypt_share q B P G pk share r = none ↔ q ≤ r) ∧
    (r < q → ∃ l, encrypt_share q B P G pk share r = some l ∧
      l.length = m_chunks B P ∧ ∀ c ∈ l, c.2 = (r : ZMod q) * G) := by
  unfold encrypt_share
  constructor
  · split <;> simp_all
  · intro h
    rw [if_neg (by omega)]
    refine ⟨_, rfl, ?_, ?_⟩
    · rw [List.length_map]
      exact chunk_loop_length B (m_chunks B P) share
    · intro c hc
      rcases List.mem_map.mp hc with ⟨mj, _, rfl⟩
      rfl

/-- Witness for C8's amended theorem at a concrete input. -/
theorem encrypt_share_validation_witness :
    ∃ l, encrypt_share 5 2 5 (1 : ZMod 5) (2 : ZMod 5) 3 1 = some l ∧
      l.length = m_chunks 2 5 ∧ ∀ c ∈ l, c.2 = ((1 : Nat) : ZMod 5) * 1 :=
  (encrypt_share_validation 5 2 5 1 2 3 1).2 (by decide)

/-! ### Claim C9: reshare validates the held share count -/

/-- Counterexample to C9: for a view holding 1 share with declared threshold
2, `reshare_shares` raises (ValueError) instead of proceeding — the code
validates `self.threshold > len(self.shares)` on entry. -/
theorem reshare_raises_on_too_few_shares :
    reshare_shares 5 2 2 2 [(1, 3)] [[4]] = none := by decide

/-- C9 (amended): `reshare` does interpolate each transposed sub-share set
with the engine's declared threshold field as the degree bound, but it first
validates that the number of currently held shares is at least that declared
threshold: whenever the held share count is below `self.threshold` it raises
ValueError and does not proceed. -/
theorem reshare_validates_threshold (p t new_t new_n : Nat)
    (shares : List (Nat × Nat)) (css : List (List Nat))
    (h : shares.length < t) :
    reshare_shares p t new_t new_n shares css = none := by
  unfold reshare_shares
  rw [if_pos h]

/-- Witness for C9's amended theorem at a concrete input. -/
theorem reshare_validates_threshold_witness :
    ([((1 : Nat), (3 : Nat))].length < 3) ∧
      reshare_shares 7 3 2 2 [(1, 3)] [[4]] = none :=
  ⟨by decide, reshare_validates_threshold 7 3 2 2 [(1, 3)] [[4]] (by decide)⟩

/-! ### BSGS lemmas -/

theorem natCast_zmod_inj {q a b : Nat} (ha : a < q) (hb : b < q)
    (h : (a : ZMod q) = b) : a = b := by
  have hv := congrArg ZMod.val h
  rwa [ZMod.val_cast_of_lt ha, ZMod.val_cast_of_lt hb] at hv

theorem ceil_sqrt_go_sq (n : Nat) :
    ∀ (fuel start : Nat), n ≤ (start + fuel) * (start + fuel) →
      n ≤ ceil_sqrt_go n fuel start * ceil_sqrt_go n fuel start := by
  intro fuel
  induction fuel with
  | zero => intro start h; simpa using h
  | succ fuel ih =>
    intro start h
    unfold ceil_sqrt_go
    split
    · assumption
    · exact ih (start + 1) (by have heq : start + 1 + fuel = start + (fuel + 1) := by omega
                               rw [heq]; exact h)

theorem ceil_sqrt_sq (n : Nat) : n ≤ ceil_sqrt n * ceil_sqrt n := by
  unfold ceil_sqrt
  exact ceil_sqrt_go_sq n (n + 1) 0 (by nlinarith)

theorem ceil_sqrt_go_le (n : Nat) :
    ∀ (fuel start : Nat), start ≤ n → n ≤ n * n → n + 1 ≤ start + fuel →
      ceil_sqrt_go n fuel start ≤ n := by
  intro fuel
  induction fuel with
  | zero => intro start h1 h2 h3; omega
  | succ fuel ih =>
    intro start h1 h2 h3
    unfold ceil_sqrt_go
    split
    · exact h1
    · rename_i hmiss
      have hlt : start < n := by
        rcases Nat.lt_or_ge start n with h | h
        · exact h
        · exfalso; exact hmiss (by have : start = n := by omega
                                   rw [this]; exact h2)
      exact ih (start + 1) (by omega) h2 (by omega)

theorem ceil_sqrt_le (n : Nat) : ceil_sqrt n ≤ n := by
  unfold ceil_sqrt
  refine ceil_sqrt_go_le n (n + 1) 0 (by omega) ?_ (by omega)
  rcases Nat.eq_zero_or_pos n with h | h
  · simp [h]
  · exact Nat.le_mul_of_pos_left n h

theorem table_find_baby (q : Nat) (hq : q.Prime) (base : ZMod q)
    (hb : base ≠ 0) :
    ∀ (m j : Nat), m ≤ q → j < m →
      table_find q (baby_table q base m) ((j : ZMod q) * base) = some j := by
  haveI : Fact q.Prime := ⟨hq⟩
  intro m
  induction m with
  | zero => intro j _ hj; omega
  | succ m ih =>
    intro j hm hj
    by_cases hjm : j = m
    · subst hjm
      simp [baby_table, table_find]
    · have hne : ((m : ZMod q) * base) ≠ ((j : ZMod q) * base) := by
        intro hEq
        have hc : (m : ZMod q) = (j : ZMod q) := mul_right_cancel₀ hb hEq
        have := natCast_zmod_inj (by omega) (by omega) hc
        omega
      simp only [baby_table, table_find, if_neg hne]
      exact ih j (by omega) (by omega)

theorem table_find_sound (q : Nat) (base : ZMod q) :
    ∀ (m : Nat) (x : ZMod q) (j : Nat),
      table_find q (baby_table q base m) x = some j →
      j < m ∧ x = (j : ZMod q) * base := by
  intro m
  induction m with
  | zero => intro x j h; simp [baby_table, table_find] at h
  | succ m ih =>
    intro x j h
    simp only [baby_table, table_find] at h
    split at h
    · rename_i heq
      cases h
      exact ⟨Nat.lt_succ_self m, heq.symm⟩
    · rcases ih x j h with ⟨h1, h2⟩
      exact ⟨by omega, h2⟩

theorem giant_loop_step_none (q : Nat) (base target gstep : ZMod q) (m : Nat)
    (table : List (ZMod q × Nat)) (fuel i : Nat) (current : ZMod q)
    (h : table_find q table current = none) :
    giant_loop q base target gstep m table (fuel + 1) i current =
      giant_loop q base target gstep m table fuel (i + 1) (current + gstep) := by
  simp only [giant_loop, h]

theorem giant_loop_step_hit (q : Nat) (base target gstep : ZMod q) (m : Nat)
    (table : List (ZMod q × Nat)) (fuel i j : Nat) (current : ZMod q)
    (h : table_find q table current = some j)
    (hver : ((i * m + j : Nat) : ZMod q) * base = target) :
    giant_loop q base target gstep m table (fuel + 1) i current =
      some (i * m + j) := by
  simp only [giant_loop, h, if_pos hver]

theorem giant_loop_sound (q : Nat) (base target gstep : ZMod q) (m : Nat)
    (table : List (ZMod q × Nat)) :
    ∀ (fuel i : Nat) (current : ZMod q) (r : Nat),
      giant_loop q base target gstep m table fuel i current = some r →
      (r : ZMod q) * base = target := by
  intro fuel
  induction fuel with
  | zero => intro i current r h; simp [giant_loop] at h
  | succ fuel ih =>
    intro i current r h
    rcases htf : table_find q table current with _ | j
    · rw [giant_loop_step_none q base target gstep m table fuel i current htf] at h
      exact ih _ _ _ h
    · by_cases hver : ((i * m + j : Nat) : ZMod q) * base = target
      · rw [giant_loop_step_hit q base target gstep m table fuel i j current htf hver] at h
        cases h
        exact hver
      · simp only [giant_loop, htf, if_neg hver] at h
        exact ih _ _ _ h

theorem giant_loop_finds (q : Nat) (hq : q.Prime) (base : ZMod q)
    (hb : base ≠ 0) (x m : Nat) (hxm : x < m * m) (hmq : m ≤ q) (hxq : x < q) :
    ∀ (fuel i : Nat), i + fuel = m → i ≤ x / m →
      giant_loop q base ((x : ZMod q) * base) ((m : ZMod q) * (-base)) m
        (baby_table q base m) fuel i (((x - i * m : Nat) : ZMod q) * base) =
        some x := by
  haveI : Fact q.Prime := ⟨hq⟩
  have hm0 : 0 < m := by
    rcases Nat.eq_zero_or_pos m with h | h
    · subst h; omega
    · exact h
  have hdiv : x / m < m := by
    rw [Nat.div_lt_iff_lt_mul hm0]; exact hxm
  intro fuel
  induction fuel with
  | zero => intro i hi hile; omega
  | succ fuel ih =>
    intro i hi hile
    have hdm : x / m * m + x % m = x := by
      have h := Nat.div_add_mod x m
      rw [Nat.mul_comm m (x / m)] at h
      exact h
    by_cases hcase : i = x / m
    · subst hcase
      have hj : x - x / m * m = x % m := by omega
      rw [hj]
      rw [giant_loop_step_hit q base ((x : ZMod q) * base) ((m : ZMod q) * (-base)) m
        (baby_table q base m) fuel (x / m) (x % m) _
        (table_find_baby q hq base hb m (x % m) hmq (Nat.mod_lt x hm0))
        (by rw [hdm])]
      rw [hdm]
    · have hlt : i < x / m := by omega
      have him1 : i * m + m ≤ x := by
        have h := Nat.mul_le_mul_right m (show i + 1 ≤ x / m by omega)
        rw [Nat.add_mul, one_mul] at h
        exact le_trans h (Nat.div_mul_le_self x m)
      have hnone : table_find q (baby_table q base m)
          (((x - i * m : Nat) : ZMod q) * base) = none := by
        rcases htf : table_find q (baby_table q base m)
            (((x - i * m : Nat) : ZMod q) * base) with _ | j
        · rfl
        · exfalso
          rcases table_find_sound q base m _ j htf with ⟨hjm, hEq⟩
          have hc : ((x - i * m : Nat) : ZMod q) = (j : ZMod q) :=
            mul_right_cancel₀ hb hEq
          have := natCast_zmod_inj (by omega) (by omega) hc
          omega
      rw [giant_loop_step_none q base ((x : ZMod q) * base)
        ((m : ZMod q) * (-base)) m (baby_table q base m) fuel i _ hnone]
      have hadd : (i + 1) * m = i * m + m := by rw [Nat.add_mul, one_mul]
      have hstep : (((x - i * m : Nat) : ZMod q) * base) + ((m : ZMod q) * (-base)) =
          (((x - (i + 1) * m : Nat)) : ZMod q) * base := by
        have hmle : m ≤ x - i * m := by omega
        have hsub : x - (i + 1) * m = (x - i * m) - m := by rw [hadd]; omega
        rw [hsub, Nat.cast_sub hmle]
        ring
      rw [hstep]
      exact ih (i + 1) (by omega) (by omega)

theorem bsgs_finds (q : Nat) (hq : q.Prime) (base : ZMod q) (hb : base ≠ 0)
    (limit x : Nat) (hx : x < limit) (hlq : limit ≤ q) :
    baby_step_giant_step q base ((x : ZMod q) * base) limit = some x := by
  haveI : Fact q.Prime := ⟨hq⟩
  have hxq : x < q := lt_of_lt_of_le hx hlq
  rcases Nat.lt_or_ge x 2 with hx2 | hx2
  · interval_cases x
    · unfold baby_step_giant_step
      rw [if_pos (by push_cast; ring)]
    · have h1 : ((1 : Nat) : ZMod q) * base = base := by push_cast; ring
      unfold baby_step_giant_step
      rw [if_neg (by rw [h1]; exact hb), if_pos h1.symm]
  · have htne : ((x : ZMod q) * base) ≠ 0 := by
      intro h
      rcases mul_eq_zero.mp h with hx0 | hb0
      · have hz : (x : ZMod q) = ((0 : Nat) : ZMod q) := by push_cast; exact hx0
        have := natCast_zmod_inj hxq (by omega) hz
        omega
      · exact hb hb0
    have hbne : base ≠ (x : ZMod q) * base := by
      intro h
      have h1 : (1 : ZMod q) = (x : ZMod q) := by
        apply mul_right_cancel₀ hb
        rw [one_mul]; exact h
      have h2 : ((1 : Nat) : ZMod q) = ((x : Nat) : ZMod q) := by push_cast; exact h1
      have := natCast_zmod_inj (by omega) hxq h2
      omega
    unfold baby_step_giant_step
    rw [if_neg htne, if_neg hbne]
    have hxm : x < ceil_sqrt limit * ceil_sqrt limit :=
      lt_of_lt_of_le hx (ceil_sqrt_sq limit)
    have hmq : ceil_sqrt limit ≤ q := le_trans (ceil_sqrt_le limit) hlq
    have h := giant_loop_finds q hq base hb x (ceil_sqrt limit) hxm hmq hxq
      (ceil_sqrt limit) 0 (by omega) (Nat.zero_le _)
    simpa using h

theorem bsgs_sound (q : Nat) (base target : ZMod q) (limit r : Nat)
    (h : baby_step_giant_step q base target limit = some r) :
    (r : ZMod q) * base = target := by
  unfold baby_step_giant_step at h
  split at h
  · rename_i h0
    cases h
    rw [h0]; push_cast; ring
  · split at h
    · rename_i hbt
      cases h
      rw [← hbt]; push_cast; ring
    · exact giant_loop_sound q base target _ _ _ _ _ _ _ h

/-! ### Claim C2: BSGS contract -/

/-- Counterexample to C2: over the prime-order group `ZMod 101` with
`base = 1`, the target `7` is not `x*base` for any `x ∈ [0, 5)`, yet
`baby_step_giant_step(base, target, 5)` returns `7` instead of NotFound:
the search covers `[0, m^2)` with `m = ceil(sqrt(limit)) = 3` and the
verification step accepts any exact hit, even one `≥ limit`. -/
theorem bsgs_result_exceeds_limit :
    baby_step_giant_step 101 (1 : ZMod 101) (7 : ZMod 101) 5 = some 7 ∧
      ∀ x : Fin 5, ((x.val : ZMod 101) * 1) ≠ (7 : ZMod 101) := by
  constructor
  · rfl
  · decide

/-- C2 (amended): for every group element `base` of prime order `q`, every
`limit ≤ q` and every `x ∈ [0, limit)`, `baby_step_giant_step(base, x*base,
limit)` returns `x`; and every returned value `r` satisfies `r*base = target`
(soundness) — but for a target whose discrete log lies in `[limit, m^2)` the
code may return that log instead of NotFound, so NotFound is only guaranteed
when no `x ∈ [0, m^2)` matches. -/
theorem bsgs_spec (q : Nat) (hq : q.Prime) (base : ZMod q) (hb : base ≠ 0)
    (limit : Nat) (hlq : limit ≤ q) :
    (∀ x, x < limit →
      baby_step_giant_step q base ((x : ZMod q) * base) limit = some x) ∧
    (∀ (target : ZMod q) (r : Nat),
      baby_step_giant_step q base target limit = some r →
      (r : ZMod q) * base = target) :=
  ⟨fun x hx => bsgs_finds q hq base hb limit x hx hlq,
   fun target r h => bsgs_sound q base target limit r h⟩

/-- Witness for C2's amended theorem at a concrete input. -/
theorem bsgs_spec_witness :
    baby_step_giant_step 5 (1 : ZMod 5) (((3 : Nat) : ZMod 5) * 1) 4 = some 3 :=
  (bsgs_spec 5 (by norm_num) 1 (by decide) 4 (by decide)).1 3 (by decide)

/-! ### Claim C6: the shortcut branches vs the general search -/

/-- Counterexample to C6: at `limit = 1` with `target = base`, the shortcut
returns 1 while the general baby-step giant-step search restricted to
`x ∈ [0, 1)` returns NotFound, so the claimed equivalence fails at small
limits. -/
theorem bsgs_shortcut_diverges_at_small_limit :
    baby_step_giant_step 5 (1 : ZMod 5) (1 : ZMod 5) 1 = some 1 ∧
      baby_step_giant_step_general 5 (1 : ZMod 5) (1 : ZMod 5) 1 = none := by
  constructor <;> rfl

theorem giant_loop_start_hit (q : Nat) (base target gstep : ZMod q) (m : Nat)
    (table : List (ZMod q × Nat)) (j : Nat) (hm : 1 ≤ m)
    (htf : table_find q table target = some j)
    (hver : ((0 * m + j : Nat) : ZMod q) * base = target) :
    giant_loop q base target gstep m table m 0 target = some (0 * m + j) := by
  obtain ⟨m1, rfl⟩ : ∃ m1, m = m1 + 1 := ⟨m - 1, by omega⟩
  exact giant_loop_step_hit q base target gstep _ table m1 0 j target htf hver

/-- C6 (amended): for every prime-order base and every `2 ≤ limit ≤ q`, the
two shortcut branches (identity target ↦ 0, `target = base` ↦ 1) agree with
the general baby-step giant-step search on the same inputs; for
`limit ∈ {0, 1}` the equivalence fails (see the counterexample), because the
general search's baby table then holds at most the single entry `0*base`. -/
theorem bsgs_shortcut_agree (q : Nat) (hq : q.Prime) (base target : ZMod q)
    (hb : base ≠ 0) (limit : Nat) (h2 : 2 ≤ limit) (hlq : limit ≤ q)
    (hshort : target = 0 ∨ target = base) :
    baby_step_giant_step q base target limit =
      baby_step_giant_step_general q base target limit := by
  haveI : Fact q.Prime := ⟨hq⟩
  have hmm : 2 ≤ ceil_sqrt limit * ceil_sqrt limit :=
    le_trans h2 (ceil_sqrt_sq limit)
  have hm2 : 2 ≤ ceil_sqrt limit := by
    by_contra hcon
    push_neg at hcon
    have hle : ceil_sqrt limit ≤ 1 := by omega
    have h1 := Nat.mul_le_mul hle hle
    omega
  have hmq : ceil_sqrt limit ≤ q := le_trans (ceil_sqrt_le limit) hlq
  rcases hshort with h0 | hbt
  · subst h0
    have htf : table_find q (baby_table q base (ceil_sqrt limit)) (0 : ZMod q) =
        some 0 := by
      have h := table_find_baby q hq base hb (ceil_sqrt limit) 0 hmq (by omega)
      simpa using h
    unfold baby_step_giant_step baby_step_giant_step_general
    rw [if_pos rfl, giant_loop_start_hit q base 0 _ (ceil_sqrt limit) _ 0
      (by omega) htf (by push_cast; ring)]
    norm_num
  · rw [hbt]
    have htf : table_find q (baby_table q base (ceil_sqrt limit)) base =
        some 1 := by
      have h := table_find_baby q hq base hb (ceil_sqrt limit) 1 hmq (by omega)
      simpa using h
    unfold baby_step_giant_step baby_step_giant_step_general
    rw [if_neg hb, if_pos rfl, giant_loop_start_hit q base base _
      (ceil_sqrt limit) _ 1 (by omega) htf (by push_cast; ring)]
    norm_num

/-- Witness for C6's amended theorem at a concrete input. -/
theorem bsgs_shortcut_agree_witness :
    baby_step_giant_step 5 (2 : ZMod 5) (2 : ZMod 5) 3 =
      baby_step_giant_step_general 5 (2 : ZMod 5) (2 : ZMod 5) 3 :=
  bsgs_shortcut_agree 5 (by norm_num) 2 2 (by decide) 3 (by decide) (by decide)
    (Or.inr rfl)

/-! ### Claim C3: ElGamal round trip -/

/-- C3: for every key pair `pk = sk*G` with `sk ∈ [1, P-1]`, every bound
`limit ≤ P`, every message `0 ≤ m < limit`, and every choice of the ephemeral
randomness `r ∈ [1, P-1]` drawn inside encrypt,
`decrypt(sk, encrypt(pk, m), limit) = m`. -/
theorem elgamal_round_trip (q : Nat) (hq : q.Prime) (G : ZMod q) (hG : G ≠ 0)
    (sk : Nat) (hsk1 : 1 ≤ sk) (hskq : sk ≤ q - 1)
    (r : Nat) (hr1 : 1 ≤ r) (hrq : r ≤ q - 1)
    (limit m : Nat) (hlq : limit ≤ q) (hm : m < limit) :
    (elgamal_encrypt q G ((sk : ZMod q) * G) (limit : Int) (m : Int) r).bind
      (fun ct => elgamal_decrypt q G sk ct limit) = some m := by
  have henc : elgamal_encrypt q G ((sk : ZMod q) * G) (limit : Int) (m : Int) r =
      some ((r : ZMod q) * ((sk : ZMod q) * G) + ((m : Int) : ZMod q) * G,
            (r : ZMod q) * G) := by
    unfold elgamal_encrypt
    rw [if_neg (by omega)]
  rw [henc]
  show elgamal_decrypt q G sk
    ((r : ZMod q) * ((sk : ZMod q) * G) + ((m : Int) : ZMod q) * G,
      (r : ZMod q) * G) limit = some m
  unfold elgamal_decrypt
  show baby_step_giant_step q G
    (((r : ZMod q) * ((sk : ZMod q) * G) + ((m : Int) : ZMod q) * G) +
      -((sk : ZMod q) * ((r : ZMod q) * G))) limit = some m
  have hM : (((r : ZMod q) * ((sk : ZMod q) * G) + ((m : Int) : ZMod q) * G) +
      -((sk : ZMod q) * ((r : ZMod q) * G))) = (m : ZMod q) * G := by
    push_cast
    ring
  rw [hM]
  exact bsgs_finds q hq G hG limit m hm hlq

/-- Witness for C3 at a concrete input. -/
theorem elgamal_round_trip_witness :
    (elgamal_encrypt 5 (1 : ZMod 5) (((2 : Nat) : ZMod 5) * 1)
        ((4 : Nat) : Int) ((2 : Nat) : Int) 3).bind
      (fun ct => elgamal_decrypt 5 1 2 ct 4) = some 2 :=
  elgamal_round_trip 5 (by norm_num) 1 (by decide) 2 (by decide) (by decide)
    3 (by decide) (by decide) 4 2 (by decide) (by decide)

/-! ### Shamir reconstruction: evaluation lemmas -/

/-- Numerator component of `lagrange_step`. -/
def lagrange_step_num (p xj : Nat) (acc : Int) (xm : Nat) : Int :=
  if xj ≠ xm then (acc * (-(xm : Int))) % (p : Int) else acc

/-- Denominator component of `lagrange_step`. -/
def lagrange_step_den (p xj : Nat) (acc : Int) (xm : Nat) : Int :=
  if xj ≠ xm then (acc * ((xj : Int) - (xm : Int))) % (p : Int) else acc

theorem lagrange_nd_eq (p xj : Nat) :
    ∀ (keys : List Nat) (a b : Int),
      keys.foldl (lagrange_step p xj) (a, b) =
        (keys.foldl (lagrange_step_num p xj) a,
          keys.foldl (lagrange_step_den p xj) b) := by
  intro keys
  induction keys with
  | nil => intro a b; rfl
  | cons x ks ih =>
    intro a b
    simp only [List.foldl_cons]
    by_cases hc : xj ≠ x
    · rw [show lagrange_step p xj (a, b) x =
          ((a * (-(x : Int))) % (p : Int), (b * ((xj : Int) - (x : Int))) % (p : Int))
          from by simp [lagrange_step, hc],
        show lagrange_step_num p xj a x = (a * (-(x : Int))) % (p : Int)
          from by simp [lagrange_step_num, hc],
        show lagrange_step_den p xj b x = (b * ((xj : Int) - (x : Int))) % (p : Int)
          from by simp [lagrange_step_den, hc]]
      exact ih _ _
    · rw [show lagrange_step p xj (a, b) x = (a, b) from by simp [lagrange_step, hc],
        show lagrange_step_num p xj a x = a from by simp [lagrange_step_num, hc],
        show lagrange_step_den p xj b x = b from by simp [lagrange_step_den, hc]]
      exact ih a b

theorem lagrange_nd_pair (p xj : Nat) (keys : List Nat) :
    lagrange_nd p xj keys =
      (keys.foldl (lagrange_step_num p xj) 1,
        keys.foldl (lagrange_step_den p xj) 1) :=
  lagrange_nd_eq p xj keys 1 1

theorem int_emod_cast (p : Nat) (z : Int) :
    (((z % (p : Int)) : Int) : ZMod p) = (z : ZMod p) := by
  have hp : ((p : Nat) : ZMod p) = 0 := ZMod.natCast_self p
  conv_lhs => rw [Int.emod_def]
  push_cast
  rw [hp]
  ring

theorem fold_num_spec (p : Nat) (hp1 : 1 < p) (xj : Nat) :
    ∀ (keys : List Nat) (a : Int), 0 ≤ a → a < (p : Int) →
      0 ≤ keys.foldl (lagrange_step_num p xj) a ∧
      keys.foldl (lagrange_step_num p xj) a < (p : Int) ∧
      ((keys.foldl (lagrange_step_num p xj) a : Int) : ZMod p) =
        (a : ZMod p) *
          (keys.map (fun xm => if xj ≠ xm then -((xm : Nat) : ZMod p) else 1)).prod := by
  have hpI : (0 : Int) < (p : Int) := by exact_mod_cast Nat.lt_of_lt_of_le Nat.zero_lt_one hp1.le
  intro keys
  induction keys with
  | nil => intro a h0 h1; exact ⟨h0, h1, by simp⟩
  | cons x ks ih =>
    intro a h0 h1
    simp only [List.foldl_cons, List.map_cons, List.prod_cons]
    by_cases hc : xj ≠ x
    · rw [show lagrange_step_num p xj a x = (a * (-(x : Int))) % (p : Int)
        from by simp [lagrange_step_num, hc], if_pos hc]
      obtain ⟨r0, rp, rc⟩ := ih ((a * (-(x : Int))) % (p : Int))
        (Int.emod_nonneg _ (by omega)) (Int.emod_lt_of_pos _ hpI)
      refine ⟨r0, rp, ?_⟩
      rw [rc, int_emod_cast]
      push_cast
      ring
    · rw [show lagrange_step_num p xj a x = a from by simp [lagrange_step_num, hc],
        if_neg hc]
      obtain ⟨r0, rp, rc⟩ := ih a h0 h1
      refine ⟨r0, rp, ?_⟩
      rw [rc]
      ring

theorem fold_den_spec (p : Nat) (hp1 : 1 < p) (xj : Nat) :
    ∀ (keys : List Nat) (a : Int), 0 ≤ a → a < (p : Int) →
      0 ≤ keys.foldl (lagrange_step_den p xj) a ∧
      keys.foldl (lagrange_step_den p xj) a < (p : Int) ∧
      ((keys.foldl (lagrange_step_den p xj) a : Int) : ZMod p) =
        (a : ZMod p) *
          (keys.map (fun xm =>
            if xj ≠ xm then ((xj : ZMod p) - ((xm : Nat) : ZMod p)) else 1)).prod := by
  have hpI : (0 : Int) < (p : Int) := by exact_mod_cast Nat.lt_of_lt_of_le Nat.zero_lt_one hp1.le
  intro keys
  induction keys with
  | nil => intro a h0 h1; exact ⟨h0, h1, by simp⟩
  | cons x ks ih =>
    intro a h0 h1
    simp only [List.foldl_cons, List.map_cons, List.prod_cons]
    by_cases hc : xj ≠ x
    · rw [show lagrange_step_den p xj a x = (a * ((xj : Int) - (x : Int))) % (p : Int)
        from by simp [lagrange_step_den, hc], if_pos hc]
      obtain ⟨r0, rp, rc⟩ := ih ((a * ((xj : Int) - (x : Int))) % (p : Int))
        (Int.emod_nonneg _ (by omega)) (Int.emod_lt_of_pos _ hpI)
      refine ⟨r0, rp, ?_⟩
      rw [rc, int_emod_cast]
      push_cast
      ring
    · rw [show lagrange_step_den p xj a x = a from by simp [lagrange_step_den, hc],
        if_neg hc]
      obtain ⟨r0, rp, rc⟩ := ih a h0 h1
      refine ⟨r0, rp, ?_⟩
      rw [rc]
      ring

theorem pow_card_sub_two (p : Nat) (hp : p.Prime) (a : ZMod p) (ha : a ≠ 0) :
    a ^ (p - 2) = a⁻¹ := by
  haveI : Fact p.Prime := ⟨hp⟩
  have h1 : a ^ (p - 1) = 1 := ZMod.pow_card_sub_one_eq_one ha
  have h2 : p - 1 = (p - 2) + 1 := by have := hp.two_le; omega
  rw [h2, pow_succ] at h1
  exact eq_inv_of_mul_eq_one_left h1

theorem mod_inverse_spec (p : Nat) (hp : p.Prime) (d : Nat)
    (hd : (d : ZMod p) ≠ 0) :
    mod_inverse d p = some ((d ^ (p - 2)) % p) ∧
      (((d ^ (p - 2)) % p : Nat) : ZMod p) = (d : ZMod p)⁻¹ := by
  haveI : Fact p.Prime := ⟨hp⟩
  have hnd : ¬ p ∣ d := by
    intro h
    exact hd ((ZMod.natCast_zmod_eq_zero_iff_dvd d p).mpr h)
  have hgcd : Nat.gcd (d % p) p = 1 := by
    have h1 : Nat.gcd p d = 1 := (Nat.Prime.coprime_iff_not_dvd hp).mpr hnd
    have h3 : Nat.gcd p d = Nat.gcd (d % p) p := Nat.gcd_rec p d
    rw [← h3]
    exact h1
  refine ⟨by simp [mod_inverse, hgcd], ?_⟩
  rw [ZMod.natCast_mod, Nat.cast_pow, pow_card_sub_two p hp _ hd]

/-- Closed form of the Lagrange basis value at `x = 0` for node `xj` over
`keys`, as an element of `ZMod p` (proof-layer abbreviation). -/
def ell (p : Nat) (keys : List Nat) (xj : Nat) : ZMod p :=
  (keys.map (fun xm => if xj ≠ xm then -((xm : Nat) : ZMod p) else 1)).prod *
    ((keys.map (fun xm =>
      if xj ≠ xm then ((xj : ZMod p) - ((xm : Nat) : ZMod p)) else 1)).prod)⁻¹

theorem lagrange_basis_spec (p : Nat) (hp : p.Prime) (keys : List Nat) (xj : Nat)
    (hden : (keys.map (fun xm =>
      if xj ≠ xm then ((xj : ZMod p) - ((xm : Nat) : ZMod p)) else 1)).prod ≠ 0) :
    ∃ b, lagrange_basis p xj keys = some b ∧ b < p ∧
      (b : ZMod p) = ell p keys xj := by
  haveI : Fact p.Prime := ⟨hp⟩
  have hp1 : 1 < p := hp.one_lt
  have hpI : (0 : Int) < (p : Int) := by exact_mod_cast Nat.lt_of_lt_of_le Nat.zero_lt_one hp1.le
  obtain ⟨hn0, hnp, hnc⟩ := fold_num_spec p hp1 xj keys 1 (by omega) (by omega)
  obtain ⟨hd0, hdp, hdc⟩ := fold_den_spec p hp1 xj keys 1 (by omega) (by omega)
  rw [Int.cast_one, one_mul] at hnc hdc
  set N := keys.foldl (lagrange_step_num p xj) 1 with hN
  set D := keys.foldl (lagrange_step_den p xj) 1 with hD
  have hDcast : ((D.toNat : Nat) : ZMod p) =
      (keys.map (fun xm =>
        if xj ≠ xm then ((xj : ZMod p) - ((xm : Nat) : ZMod p)) else 1)).prod := by
    have h1 : ((D.toNat : Int) : ZMod p) = ((D : Int) : ZMod p) := by
      rw [Int.toNat_of_nonneg hd0]
    rw [← @Int.cast_natCast (ZMod p) _ D.toNat, h1, hdc]
  have hDne : ((D.toNat : Nat) : ZMod p) ≠ 0 := by
    rw [hDcast]; exact hden
  obtain ⟨hmi, hmic⟩ := mod_inverse_spec p hp D.toNat hDne
  have hbasis : lagrange_basis p xj keys =
      (mod_inverse D.toNat p).map
        (fun (inv : Nat) => ((N * (inv : Int)) % (p : Int)).toNat) := by
    unfold lagrange_basis
    rw [lagrange_nd_pair]
  refine ⟨((N * (((D.toNat ^ (p - 2)) % p : Nat) : Int)) % (p : Int)).toNat, ?_, ?_, ?_⟩
  · rw [hbasis, hmi]
    rfl
  · have h1 : (N * (((D.toNat ^ (p - 2)) % p : Nat) : Int)) % (p : Int) < (p : Int) :=
      Int.emod_lt_of_pos _ hpI
    omega
  · have h0 : 0 ≤ (N * (((D.toNat ^ (p - 2)) % p : Nat) : Int)) % (p : Int) :=
      Int.emod_nonneg _ (by omega)
    have h2 : (((((N * (((D.toNat ^ (p - 2)) % p : Nat) : Int)) % (p : Int)).toNat : Nat)) : ZMod p) =
        ((((N * (((D.toNat ^ (p - 2)) % p : Nat) : Int)) % (p : Int)) : Int) : ZMod p) := by
      rw [← @Int.cast_natCast (ZMod p) _, Int.toNat_of_nonneg h0]
    rw [h2, int_emod_cast]
    push_cast
    rw [hnc]
    unfold ell
    rw [← hDcast, ← hmic, ZMod.natCast_mod, Nat.cast_pow]

theorem reconstruct_sum_spec (p : Nat) (hp : p.Prime) (keys : List Nat) :
    ∀ (rest : List (Nat × Nat)) (acc : Nat), acc < p →
      (∀ s ∈ rest, (keys.map (fun xm =>
        if s.1 ≠ xm then ((s.1 : ZMod p) - ((xm : Nat) : ZMod p)) else 1)).prod ≠ 0) →
      ∃ v, reconstruct_sum p keys rest acc = some v ∧ v < p ∧
        (v : ZMod p) =
          (acc : ZMod p) + (rest.map (fun s => (s.2 : ZMod p) * ell p keys s.1)).sum := by
  intro rest
  induction rest with
  | nil => intro acc hacc hden; exact ⟨acc, rfl, hacc, by simp⟩
  | cons s rest ih =>
    intro acc hacc hden
    obtain ⟨b, hb, hbp, hbell⟩ :=
      lagrange_basis_spec p hp keys s.1 (hden s (List.mem_cons_self s rest))
    have hstep : reconstruct_sum p keys (s :: rest) acc =
        reconstruct_sum p keys rest ((acc + s.2 * b) % p) := by
      simp only [reconstruct_sum, hb]
    obtain ⟨v, hv, hvp, hvc⟩ := ih ((acc + s.2 * b) % p)
      (Nat.mod_lt _ hp.pos)
      (fun t ht => hden t (List.mem_cons_of_mem s ht))
    refine ⟨v, by rw [hstep]; exact hv, hvp, ?_⟩
    rw [hvc, ZMod.natCast_mod]
    simp only [List.map_cons, List.sum_cons]
    push_cast
    rw [hbell]
    ring

theorem reconstruct_secret_spec (p : Nat) (hp : p.Prime) (t : Nat)
    (shares : List (Nat × Nat)) (hlen : t ≤ shares.length)
    (hnd : (shares.map (fun s => ((s.1 : Nat) : ZMod p))).Nodup) :
    ∃ v, reconstruct_secret p t shares = some v ∧ v < p ∧
      (v : ZMod p) =
        (shares.map (fun s =>
          (s.2 : ZMod p) * ell p (shares.map Prod.fst) s.1)).sum := by
  haveI : Fact p.Prime := ⟨hp⟩
  have hden : ∀ s ∈ shares, ((shares.map Prod.fst).map (fun xm =>
      if s.1 ≠ xm then ((s.1 : ZMod p) - ((xm : Nat) : ZMod p)) else 1)).prod ≠ 0 := by
    intro s hs
    apply List.prod_ne_zero
    intro h0
    rcases List.mem_map.mp h0 with ⟨xm, hxm, hfz⟩
    by_cases hc : s.1 ≠ xm
    · rw [if_pos hc] at hfz
      have heq : (s.1 : ZMod p) = (xm : ZMod p) := sub_eq_zero.mp hfz
      rcases List.mem_map.mp hxm with ⟨t2, ht2, rfl⟩
      have hst := List.inj_on_of_nodup_map hnd hs ht2 heq
      exact hc (congrArg Prod.fst hst)
    · rw [if_neg hc] at hfz
      exact one_ne_zero hfz
  obtain ⟨v, hv, hvp, hvc⟩ :=
    reconstruct_sum_spec p hp (shares.map Prod.fst) shares 0 hp.pos hden
  refine ⟨v, ?_, hvp, by rw [hvc]; push_cast; ring⟩
  unfold reconstruct_secret
  rw [if_neg (by omega)]
  exact hv

/-! ### Shamir reconstruction: interpolation exactness -/

theorem get_cast_inj (p : Nat) (shares : List (Nat × Nat))
    (hnd : (shares.map (fun s => ((s.1 : Nat) : ZMod p))).Nodup)
    (i j : Fin shares.length)
    (h : ((shares.get i).1 : ZMod p) = ((shares.get j).1 : ZMod p)) : i = j := by
  refine Fin.ext ?_
  have h2 := hnd.get_inj_iff.mp (show
      (shares.map (fun s => ((s.1 : Nat) : ZMod p))).get
        ⟨i.1, by simpa using i.2⟩ =
      (shares.map (fun s => ((s.1 : Nat) : ZMod p))).get
        ⟨j.1, by simpa using j.2⟩ from by
    rw [← @List.get_map_rev (Nat × Nat) (ZMod p)
        (fun s => ((s.1 : Nat) : ZMod p)) shares i,
      ← @List.get_map_rev (Nat × Nat) (ZMod p)
        (fun s => ((s.1 : Nat) : ZMod p)) shares j]
    exact h)
  have h3 := congrArg Fin.val h2
  exact h3

theorem list_map_sum_fin {α M : Type*} [AddCommMonoid M] (l : List α) (g : α → M) :
    (l.map g).sum = ∑ i : Fin l.length, g (l.get i) := by
  rw [← List.ofFn_get_eq_map l g, List.sum_ofFn]

theorem list_map_prod_fin {α M : Type*} [CommMonoid M] (l : List α) (g : α → M) :
    (l.map g).prod = ∏ i : Fin l.length, g (l.get i) := by
  rw [← List.ofFn_get_eq_map l g, List.prod_ofFn]

theorem ell_eq_basis_eval (p : Nat) [Fact p.Prime] (shares : List (Nat × Nat))
    (hnd : (shares.map (fun s => ((s.1 : Nat) : ZMod p))).Nodup)
    (i : Fin shares.length) :
    ell p (shares.map Prod.fst) (shares.get i).1 =
      (Lagrange.basis Finset.univ
        (fun j : Fin shares.length => ((shares.get j).1 : ZMod p)) i).eval 0 := by
  classical
  have hrhs : (Lagrange.basis Finset.univ
      (fun j : Fin shares.length => ((shares.get j).1 : ZMod p)) i).eval 0 =
      (∏ j ∈ Finset.univ.erase i,
        (((shares.get i).1 : ZMod p) - ((shares.get j).1 : ZMod p)))⁻¹ *
        ∏ j ∈ Finset.univ.erase i, -(((shares.get j).1 : ZMod p)) := by
    rw [Lagrange.basis, Polynomial.eval_prod]
    have heach : ∀ j ∈ Finset.univ.erase i,
        (Lagrange.basisDivisor (((shares.get i).1 : ZMod p))
          (((shares.get j).1 : ZMod p))).eval 0 =
        (((shares.get i).1 : ZMod p) - ((shares.get j).1 : ZMod p))⁻¹ *
          -(((shares.get j).1 : ZMod p)) := by
      intro j _
      rw [Lagrange.basisDivisor, Polynomial.eval_mul, Polynomial.eval_C,
        Polynomial.eval_sub, Polynomial.eval_X, Polynomial.eval_C, zero_sub]
    rw [Finset.prod_congr rfl heach, Finset.prod_mul_distrib,
      Finset.prod_inv_distrib]
  have hn : ∀ (w : Fin shares.length → ZMod p),
      (∏ j : Fin shares.length,
        if (shares.get i).1 ≠ (shares.get j).1 then w j else 1) =
        ∏ j ∈ Finset.univ.erase i, w j := by
    intro w
    have hcong : ∀ j : Fin shares.length,
        (if (shares.get i).1 ≠ (shares.get j).1 then w j else 1) =
          (if j = i then 1 else w j) := by
      intro j
      by_cases hji : j = i
      · subst hji; simp
      · rw [if_neg hji, if_pos]
        intro hEq
        exact hji (get_cast_inj p shares hnd j i (by rw [hEq]))
    rw [Finset.prod_congr rfl (fun j _ => hcong j)]
    have hpe := Finset.mul_prod_erase Finset.univ
      (fun j => if j = i then 1 else w j) (Finset.mem_univ i)
    simp only [if_true, eq_self_iff_true, one_mul] at hpe
    rw [← hpe]
    exact Finset.prod_congr rfl (fun j hj => if_neg (Finset.mem_erase.mp hj).1)
  unfold ell
  rw [List.map_map, List.map_map, list_map_prod_fin, list_map_prod_fin]
  simp only [Function.comp]
  rw [hn (fun j => -(((shares.get j).1 : ZMod p))),
    hn (fun j => (((shares.get i).1 : ZMod p) - ((shares.get j).1 : ZMod p))),
    hrhs]
  ring

theorem sum_ell_eq_eval (p : Nat) (hp : p.Prime) (shares : List (Nat × Nat))
    (hnd : (shares.map (fun s => ((s.1 : Nat) : ZMod p))).Nodup)
    (f : Polynomial (ZMod p)) (hdeg : f.degree < (shares.length : WithBot Nat))
    (hval : ∀ s ∈ shares, (s.2 : ZMod p) = f.eval ((s.1 : Nat) : ZMod p)) :
    (shares.map (fun s =>
      (s.2 : ZMod p) * ell p (shares.map Prod.fst) s.1)).sum = f.eval 0 := by
  haveI : Fact p.Prime := ⟨hp⟩
  classical
  rw [list_map_sum_fin]
  have hInj : Set.InjOn (fun j : Fin shares.length => ((shares.get j).1 : ZMod p))
      ↑(Finset.univ : Finset (Fin shares.length)) :=
    fun i _ j _ h => get_cast_inj p shares hnd i j h
  have hcard : (Finset.univ : Finset (Fin shares.length)).card = shares.length := by
    simp
  have hf := Lagrange.eq_interpolate hInj
    (show f.degree <
        (((Finset.univ : Finset (Fin shares.length)).card : Nat) : WithBot Nat) from by
      rw [hcard]; exact hdeg)
  have hev : f.eval 0 = ∑ i : Fin shares.length,
      f.eval (((shares.get i).1 : ZMod p)) *
      (Lagrange.basis Finset.univ
        (fun j : Fin shares.length => ((shares.get j).1 : ZMod p)) i).eval 0 := by
    conv_lhs => rw [hf]
    rw [Lagrange.interpolate_apply, Polynomial.eval_finset_sum]
    exact Finset.sum_congr rfl fun i _ => by
      rw [Polynomial.eval_mul, Polynomial.eval_C]
  rw [hev]
  exact Finset.sum_congr rfl fun i _ => by
    rw [hval (shares.get i) (List.get_mem shares i.1 i.2),
      ell_eq_basis_eval p shares hnd i]

/-! ### Shamir share generation and claim C4 -/

/-- Polynomial with little-endian coefficient list `cs` over `ZMod p`
(proof-layer abbreviation for the polynomial sampled by `_generate_shares`). -/
noncomputable def ofL (p : Nat) : List Nat → Polynomial (ZMod p)
  | [] => 0
  | c :: cs => Polynomial.C ((c : Nat) : ZMod p) + Polynomial.X * ofL p cs

theorem eval_poly_aux_cast (p x : Nat) :
    ∀ (cs : List Nat) (y i : Nat),
      ((eval_poly_aux p x cs y i : Nat) : ZMod p) =
        (y : ZMod p) + ((x : ZMod p)) ^ i * (ofL p cs).eval (x : ZMod p) := by
  intro cs
  induction cs with
  | nil => intro y i; simp [eval_poly_aux, ofL]
  | cons c cs ih =>
    intro y i
    show ((eval_poly_aux p x cs ((y + c * x ^ i) % p) (i + 1) : Nat) : ZMod p) = _
    rw [ih ((y + c * x ^ i) % p) (i + 1), ZMod.natCast_mod]
    simp only [ofL, Polynomial.eval_add, Polynomial.eval_mul, Polynomial.eval_C,
      Polynomial.eval_X]
    push_cast
    ring

theorem ofL_degree_lt (p : Nat) :
    ∀ cs : List Nat, (ofL p cs).degree < ((cs.length : Nat) : WithBot Nat) := by
  intro cs
  induction cs with
  | nil =>
    show (0 : Polynomial (ZMod p)).degree < _
    rw [Polynomial.degree_zero]
    exact WithBot.bot_lt_coe _
  | cons c cs ih =>
    have hC : (Polynomial.C ((c : Nat) : ZMod p)).degree <
        (((c :: cs).length : Nat) : WithBot Nat) := by
      apply lt_of_le_of_lt Polynomial.degree_C_le
      exact_mod_cast Nat.succ_pos cs.length
    have hlen : (((c :: cs).length : Nat) : WithBot Nat) =
        1 + ((cs.length : Nat) : WithBot Nat) := by
      rw [List.length_cons, Nat.cast_add, Nat.cast_one, add_comm]
    have hX : (Polynomial.X * ofL p cs).degree <
        (((c :: cs).length : Nat) : WithBot Nat) := by
      apply lt_of_le_of_lt (Polynomial.degree_mul_le _ _)
      have h1 : (Polynomial.X : Polynomial (ZMod p)).degree + (ofL p cs).degree ≤
          1 + (ofL p cs).degree := add_le_add_right Polynomial.degree_X_le _
      apply lt_of_le_of_lt h1
      rw [hlen]
      exact WithBot.add_lt_add_left (by simp) ih
    show (Polynomial.C ((c : Nat) : ZMod p) + Polynomial.X * ofL p cs).degree < _
    exact lt_of_le_of_lt (Polynomial.degree_add_le _ _) (max_lt hC hX)

theorem generate_shares_mem (p : Nat) (coeffs : List Nat) (n : Nat) :
    ∀ s ∈ generate_shares p coeffs n,
      (s.2 : ZMod p) = (ofL p coeffs).eval ((s.1 : Nat) : ZMod p) := by
  intro s hs
  rcases List.mem_map.mp hs with ⟨k, _, rfl⟩
  show ((eval_poly_aux p (k + 1) coeffs 0 0 : Nat) : ZMod p) = _
  rw [eval_poly_aux_cast]
  simp

theorem generate_shares_length (p : Nat) (coeffs : List Nat) (n : Nat) :
    (generate_shares p coeffs n).length = n := by
  simp [generate_shares]

theorem range_cast_nodup (p m : Nat) (hmp : m < p) :
    ((List.range m).map (fun k => (((k + 1 : Nat)) : ZMod p))).Nodup := by
  refine List.Nodup.map_on ?_ (List.nodup_range m)
  intro a ha b hb hEq
  have h1 := natCast_zmod_inj
    (show a + 1 < p from by have := List.mem_range.mp ha; omega)
    (show b + 1 < p from by have := List.mem_range.mp hb; omega) hEq
  omega

theorem generate_shares_nodup (p : Nat) (coeffs : List Nat) (n : Nat)
    (hnp : n < p) :
    ((generate_shares p coeffs n).map
      (fun s => ((s.1 : Nat) : ZMod p))).Nodup := by
  have h : ((generate_shares p coeffs n).map (fun s => ((s.1 : Nat) : ZMod p))) =
      (List.range n).map (fun k => (((k + 1 : Nat)) : ZMod p)) := by
    unfold generate_shares
    rw [List.map_map]
    rfl
  rw [h]
  exact range_cast_nodup p n hnp

/-- C4: for every secret in `[0, P)` and every `1 ≤ t ≤ n` (with `n < P` so
that the `n` share indices are distinct field elements), generating `n`
shares and reconstructing from all of them returns the secret, and
reconstructing from any subset of exactly `t` of those shares (as
`select_threshold_shares` draws, modelled as an arbitrary permuted sublist)
also returns the secret. -/
theorem shamir_round_trip (p t n secret : Nat) (coeffs : List Nat)
    (hp : p.Prime) (hsec : secret < p) (hclen : coeffs.length = t - 1)
    (ht1 : 1 ≤ t) (htn : t ≤ n) (hnp : n < p) :
    reconstruct_secret p t (generate_shares p (secret :: coeffs) n) = some secret ∧
    ∀ sub : List (Nat × Nat),
      sub.Subperm (generate_shares p (secret :: coeffs) n) → sub.length = t →
      reconstruct_secret p t sub = some secret := by
  haveI : Fact p.Prime := ⟨hp⟩
  have hlen := generate_shares_length p (secret :: coeffs) n
  have hnd := generate_shares_nodup p (secret :: coeffs) n hnp
  have hmem := generate_shares_mem p (secret :: coeffs) n
  have hdeg : (ofL p (secret :: coeffs)).degree < ((t : Nat) : WithBot Nat) := by
    have h := ofL_degree_lt p (secret :: coeffs)
    rwa [show (secret :: coeffs).length = t from by
      rw [List.length_cons, hclen]; omega] at h
  constructor
  · obtain ⟨v, hv, hvp, hvc⟩ := reconstruct_secret_spec p hp t _
      (by rw [hlen]; exact htn) hnd
    have hsum := sum_ell_eq_eval p hp _ hnd (ofL p (secret :: coeffs))
      (by rw [hlen]
          exact lt_of_lt_of_le hdeg (by exact_mod_cast htn)) hmem
    have hveq : v = secret := natCast_zmod_inj hvp hsec
      (by rw [hvc, hsum]; simp [ofL])
    rw [hv, hveq]
  · intro sub hsub hlsub
    have hmemsub : ∀ s ∈ sub, (s.2 : ZMod p) =
        (ofL p (secret :: coeffs)).eval ((s.1 : Nat) : ZMod p) :=
      fun s hs => hmem s (hsub.subset hs)
    have hndsub : (sub.map (fun s => ((s.1 : Nat) : ZMod p))).Nodup := by
      rcases hsub with ⟨l, hperm, hsl⟩
      have h1 : (l.map (fun s => ((s.1 : Nat) : ZMod p))).Nodup :=
        List.Nodup.sublist (hsl.map _) hnd
      exact ((hperm.map _).nodup_iff).mp h1
    obtain ⟨v, hv, hvp, hvc⟩ := reconstruct_secret_spec p hp t sub
      (by omega) hndsub
    have hsum := sum_ell_eq_eval p hp sub hndsub (ofL p (secret :: coeffs))
      (by rw [hlsub]; exact hdeg) hmemsub
    have hveq : v = secret := natCast_zmod_inj hvp hsec
      (by rw [hvc, hsum]; simp [ofL])
    rw [hv, hveq]

/-- Witness for C4 at a concrete input. -/
theorem shamir_round_trip_witness :
    reconstruct_secret 5 2 (generate_shares 5 [3, 1] 3) = some 3 ∧
      reconstruct_secret 5 2 [(1, 4), (2, 0)] = some 3 := by
  have h := shamir_round_trip 5 2 3 3 [1] (by norm_num) (by decide) rfl
    (by decide) (by decide) (by decide)
  refine ⟨h.1, ?_⟩
  refine h.2 [(1, 4), (2, 0)] ?_ rfl
  have hgen : generate_shares 5 [3, 1] 3 = [(1, 4), (2, 0), (3, 1)] := by decide
  rw [hgen]
  exact (List.Sublist.cons₂ _ (List.Sublist.cons₂ _ (List.nil_sublist _))).subperm

/-! ### Resharing and claim C1 -/

theorem poly_eval_list_sum (p : Nat) (L : List (Polynomial (ZMod p)))
    (x : ZMod p) :
    L.sum.eval x = (L.map (fun q => q.eval x)).sum := by
  induction L with
  | nil => simp
  | cons q L ih => simp [ih]

theorem degree_list_sum_lt (p : Nat) (L : List (Polynomial (ZMod p)))
    (D : WithBot Nat) (hD : ⊥ < D) (h : ∀ q ∈ L, q.degree < D) :
    L.sum.degree < D := by
  induction L with
  | nil =>
    rw [List.sum_nil, Polynomial.degree_zero]
    exact hD
  | cons q L ih =>
    rw [List.sum_cons]
    apply lt_of_le_of_lt (Polynomial.degree_add_le _ _)
    exact max_lt (h q (List.mem_cons_self _ _))
      (ih (fun r hr => h r (List.mem_cons_of_mem _ hr)))

theorem transpose_sub_keys (p : Nat) (shares : List (Nat × Nat))
    (css : List (List Nat)) (hlen : shares.length ≤ css.length) (j : Nat) :
    (transpose_sub p (shares.zip css) j).map Prod.fst = shares.map Prod.fst := by
  unfold transpose_sub
  rw [List.map_map]
  rw [show (Prod.fst ∘ fun pc : (Nat × Nat) × List Nat =>
      (pc.1.1, eval_poly_aux p j (pc.1.2 :: pc.2) 0 0)) =
      (Prod.fst ∘ (Prod.fst : (Nat × Nat) × List Nat → Nat × Nat)) from rfl]
  rw [← List.map_map, List.map_fst_zip _ _ hlen]

/-- Each transposed sub-share reconstruction succeeds and evaluates the
polynomial `sum_i C(ell_i) * (v_i + cs_i-poly)` at the new index `j`. -/
theorem transpose_reconstruct (p t : Nat) (hp : p.Prime)
    (shares : List (Nat × Nat)) (css : List (List Nat))
    (hlen : css.length = shares.length)
    (hnd : (shares.map (fun s => ((s.1 : Nat) : ZMod p))).Nodup)
    (ht : t ≤ shares.length) (j : Nat) :
    ∃ v, reconstruct_secret p t (transpose_sub p (shares.zip css) j) = some v ∧
      v < p ∧ (v : ZMod p) =
        (((shares.zip css).map (fun pc =>
          Polynomial.C (ell p (shares.map Prod.fst) pc.1.1) *
            ofL p (pc.1.2 :: pc.2))).sum).eval ((j : Nat) : ZMod p) := by
  have hkeys : (transpose_sub p (shares.zip css) j).map Prod.fst =
      shares.map Prod.fst := transpose_sub_keys p shares css (by omega) j
  have hlen2 : (transpose_sub p (shares.zip css) j).length = shares.length := by
    unfold transpose_sub
    rw [List.length_map, List.length_zip]
    omega
  have hnd2 : ((transpose_sub p (shares.zip css) j).map
      (fun s => ((s.1 : Nat) : ZMod p))).Nodup := by
    have h1 : (transpose_sub p (shares.zip css) j).map
        (fun s => ((s.1 : Nat) : ZMod p)) =
        shares.map (fun s => ((s.1 : Nat) : ZMod p)) := by
      rw [show (fun s : Nat × Nat => ((s.1 : Nat) : ZMod p)) =
          ((fun x : Nat => ((x : Nat) : ZMod p)) ∘ Prod.fst) from rfl,
        ← List.map_map, hkeys, List.map_map]
    rw [h1]
    exact hnd
  obtain ⟨v, hv, hvp, hvc⟩ := reconstruct_secret_spec p hp t _
    (by omega) hnd2
  refine ⟨v, hv, hvp, ?_⟩
  rw [hvc, hkeys]
  unfold transpose_sub
  rw [List.map_map, poly_eval_list_sum, List.map_map]
  apply congrArg List.sum
  apply List.map_congr_left
  intro pc _
  simp only [Function.comp]
  rw [eval_poly_aux_cast, Polynomial.eval_mul, Polynomial.eval_C]
  push_cast
  ring

theorem reshare_loop_eq (p t : Nat) (pairs : List ((Nat × Nat) × List Nat))
    (hfun : Nat → Nat) :
    ∀ js : List Nat,
      (∀ j ∈ js, reconstruct_secret p t (transpose_sub p pairs j) =
        some (hfun j)) →
      reshare_loop p t pairs js = some (js.map (fun j => (j, hfun j))) := by
  intro js
  induction js with
  | nil => intro _; rfl
  | cons j js ih =>
    intro h
    have hj := h j (List.mem_cons_self j js)
    have hrest := ih (fun x hx => h x (List.mem_cons_of_mem j hx))
    simp only [reshare_loop, hj, hrest, List.map_cons]

/-- C1: resharing a From-secret view into any valid `(new_t, new_n)` and
reconstructing the result returns the same value as reconstructing the
original view, namely the original secret (share indices are distinct field
elements because `n < P` and `new_n < P`; the sub-sharing randomness is the
coefficient-list parameter `css`). -/
theorem reshare_preserves_secret (p t n new_t new_n secret : Nat)
    (coeffs : List Nat) (css : List (List Nat)) (hp : p.Prime)
    (hsec : secret < p) (hclen : coeffs.length = t - 1) (ht1 : 1 ≤ t)
    (htn : t ≤ n) (hnp : n < p) (hnt1 : 1 ≤ new_t) (hntn : new_t ≤ new_n)
    (hnnp : new_n < p) (hcss : css.length = n)
    (hcsslen : ∀ cs ∈ css, cs.length = new_t - 1) :
    ∃ reshared,
      reshare_shares p t new_t new_n
        (generate_shares p (secret :: coeffs) n) css = some reshared ∧
      reconstruct_secret p new_t reshared = some secret ∧
      reconstruct_secret p t (generate_shares p (secret :: coeffs) n) =
        some secret := by
  haveI : Fact p.Prime := ⟨hp⟩
  set shares := generate_shares p (secret :: coeffs) n with hsharesdef
  have hlen : shares.length = n := generate_shares_length p (secret :: coeffs) n
  have hnd := generate_shares_nodup p (secret :: coeffs) n hnp
  have hmem := generate_shares_mem p (secret :: coeffs) n
  have hdeg : (ofL p (secret :: coeffs)).degree < ((t : Nat) : WithBot Nat) := by
    have h := ofL_degree_lt p (secret :: coeffs)
    rwa [show (secret :: coeffs).length = t from by
      rw [List.length_cons, hclen]; omega] at h
  -- reconstruction of the original view
  have horig : reconstruct_secret p t shares = some secret := by
    obtain ⟨v, hv, hvp, hvc⟩ := reconstruct_secret_spec p hp t _
      (by rw [hlen]; exact htn) hnd
    have hsum := sum_ell_eq_eval p hp _ hnd (ofL p (secret :: coeffs))
      (by rw [hlen]
          exact lt_of_lt_of_le hdeg (by exact_mod_cast htn)) hmem
    have hveq : v = secret := natCast_zmod_inj hvp hsec
      (by rw [hvc, hsum]; simp [ofL])
    rw [hv, hveq]
  -- the interpolating polynomial of the reshared values
  set Hpoly : Polynomial (ZMod p) :=
    ((shares.zip css).map (fun pc =>
      Polynomial.C (ell p (shares.map Prod.fst) pc.1.1) *
        ofL p (pc.1.2 :: pc.2))).sum with hHdef
  have hH0 : Hpoly.eval 0 = ((secret : Nat) : ZMod p) := by
    rw [hHdef, poly_eval_list_sum, List.map_map]
    have h1 : ((shares.zip css).map ((fun q => q.eval (0 : ZMod p)) ∘ fun pc =>
        Polynomial.C (ell p (shares.map Prod.fst) pc.1.1) *
          ofL p (pc.1.2 :: pc.2))).sum =
        ((shares.zip css).map ((fun s : Nat × Nat =>
          ((s.2 : Nat) : ZMod p) * ell p (shares.map Prod.fst) s.1) ∘
            Prod.fst)).sum := by
      apply congrArg List.sum
      apply List.map_congr_left
      intro pc _
      simp only [Function.comp]
      rw [Polynomial.eval_mul, Polynomial.eval_C,
        show (ofL p (pc.1.2 :: pc.2)).eval 0 = ((pc.1.2 : Nat) : ZMod p)
          from by simp [ofL]]
      ring
    rw [h1, ← List.map_map, List.map_fst_zip _ _ (by omega)]
    exact sum_ell_eq_eval p hp shares hnd (ofL p (secret :: coeffs))
      (by rw [hlen]
          exact lt_of_lt_of_le hdeg (by exact_mod_cast htn)) hmem
      |>.trans (by simp [ofL])
  have hHdeg : Hpoly.degree < ((new_t : Nat) : WithBot Nat) := by
    rw [hHdef]
    apply degree_list_sum_lt
    · exact WithBot.bot_lt_coe _
    · intro q hq
      rcases List.mem_map.mp hq with ⟨pc, hpc, rfl⟩
      apply lt_of_le_of_lt (Polynomial.degree_mul_le _ _)
      have h1 : (Polynomial.C (ell p (shares.map Prod.fst) pc.1.1)).degree +
          (ofL p (pc.1.2 :: pc.2)).degree ≤ (ofL p (pc.1.2 :: pc.2)).degree := by
        calc (Polynomial.C (ell p (shares.map Prod.fst) pc.1.1)).degree +
            (ofL p (pc.1.2 :: pc.2)).degree
            ≤ 0 + (ofL p (pc.1.2 :: pc.2)).degree :=
              add_le_add_right Polynomial.degree_C_le _
          _ = (ofL p (pc.1.2 :: pc.2)).degree := zero_add _
      apply lt_of_le_of_lt h1
      have h2 := ofL_degree_lt p (pc.1.2 :: pc.2)
      have h3 : (pc.1.2 :: pc.2).length = new_t := by
        have hmemz := List.of_mem_zip hpc
        rw [List.length_cons, hcsslen pc.2 hmemz.2]
        omega
      rwa [h3] at h2
  -- per-index reconstruction of the transposed sub-share sets
  have hrec : ∀ j, ∃ v,
      reconstruct_secret p t (transpose_sub p (shares.zip css) j) = some v ∧
      v < p ∧ (v : ZMod p) = Hpoly.eval ((j : Nat) : ZMod p) :=
    fun j => transpose_reconstruct p t hp shares css (by omega) hnd
      (by omega) j
  set hfun : Nat → Nat := fun j =>
    (reconstruct_secret p t (transpose_sub p (shares.zip css) j)).getD 0
    with hfdef
  have hfprop : ∀ j, reconstruct_secret p t (transpose_sub p (shares.zip css) j)
      = some (hfun j) ∧ hfun j < p ∧
      ((hfun j : Nat) : ZMod p) = Hpoly.eval ((j : Nat) : ZMod p) := by
    intro j
    obtain ⟨v, hv, hvp, hvc⟩ := hrec j
    have : hfun j = v := by rw [hfdef]; simp [hv]
    rw [this]
    exact ⟨hv, hvp, hvc⟩
  set js : List Nat := (List.range new_n).map (fun k => k + 1) with hjsdef
  set reshared : List (Nat × Nat) := js.map (fun j => (j, hfun j)) with hresdef
  have hloop : reshare_loop p t (shares.zip css) js = some reshared :=
    reshare_loop_eq p t (shares.zip css) hfun js (fun j _ => (hfprop j).1)
  -- reconstruction of the reshared view
  have hreslen : reshared.length = new_n := by
    rw [hresdef, List.length_map, hjsdef, List.length_map, List.length_range]
  have hresnd : (reshared.map (fun s => ((s.1 : Nat) : ZMod p))).Nodup := by
    have h1 : reshared.map (fun s => ((s.1 : Nat) : ZMod p)) =
        (List.range new_n).map (fun k => (((k + 1 : Nat)) : ZMod p)) := by
      rw [hresdef, List.map_map, hjsdef, List.map_map]
      rfl
    rw [h1]
    exact range_cast_nodup p new_n hnnp
  have hresval : ∀ s ∈ reshared,
      ((s.2 : Nat) : ZMod p) = Hpoly.eval ((s.1 : Nat) : ZMod p) := by
    intro s hs
    rcases List.mem_map.mp hs with ⟨j, _, rfl⟩
    exact (hfprop j).2.2
  have hres : reconstruct_secret p new_t reshared = some secret := by
    obtain ⟨v, hv, hvp, hvc⟩ := reconstruct_secret_spec p hp new_t reshared
      (by omega) hresnd
    have hsum := sum_ell_eq_eval p hp reshared hresnd Hpoly
      (by rw [hreslen]
          exact lt_of_lt_of_le hHdeg (by exact_mod_cast hntn)) hresval
    have hveq : v = secret := natCast_zmod_inj hvp hsec
      (by rw [hvc, hsum, hH0])
    rw [hv, hveq]
  refine ⟨reshared, ?_, hres, horig⟩
  unfold reshare_shares
  rw [if_neg (by omega)]
  rw [if_neg (show ¬ (shares.isEmpty = true) from by
    intro hEmp
    rw [List.isEmpty_iff_length_eq_zero] at hEmp
    omega)]
  rw [if_neg (by omega)]
  rw [show (List.range new_n).map (fun k => k + 1) = js from rfl, hloop]
  show (reconstruct_secret p new_t reshared).map (fun _ => reshared) =
    some reshared
  rw [hres]
  rfl

/-- Witness for C1 at a concrete input. -/
theorem reshare_preserves_secret_witness :
    ∃ reshared,
      reshare_shares 5 2 2 2 (generate_shares 5 [3, 1] 3) [[1], [2], [4]] =
        some reshared ∧
      reconstruct_secret 5 2 reshared = some 3 ∧
      reconstruct_secret 5 2 (generate_shares 5 [3, 1] 3) = some 3 :=
  reshare_preserves_secret 5 2 3 2 2 3 [1] [[1], [2], [4]] (by norm_num)
    (by decide) rfl (by decide) (by decide) (by decide) (by decide)
    (by decide) (by decide) rfl (by decide)

end NiDKG
